import Mathlib

/-!
Verification development for the HiddenMarkovModelGeneDetection repository.

The repository implements a hidden Markov model gene detector in C++:
extended-log arithmetic (`MathUtilities`), a probability model
(`HMMProbabilities`, two variants: a 2-state model over single characters
and a 12-state model over trinucleotide strings), a trellis of
positions/nodes/transitions, Viterbi decoding and training, and
Baum-Welch (forward-backward) training.

Modelling conventions of this shallow embedding:

* C `long double` values that may be NaN are modelled as `Option ℚ`,
  with `none` standing for the quiet-NaN sentinel that the code uses to
  represent log 0.  Finite doubles are modelled as rationals.
* The transcendental C library functions `log` and `exp` are abstracted
  as the fields of a `TransFns` parameter; all theorems are proved for
  every choice of these functions (adding hypotheses such as
  nonnegativity of `exp` where a claim genuinely depends on them).
* Where the stored log of a probability can also be `-inf`
  (the char-variant setters apply raw `log` to a possibly-zero value),
  the value domain is the three-way type `CLogVal` (NaN / -inf / finite).
* Fallible code (C++ `throw`) is modelled with `Except String`.
-/

/-- The transcendental C library functions, abstracted: `ln` models
`log` on positive arguments and `exp` models `exp` on finite
arguments.  Theorems quantify over this structure. -/
structure TransFns where
  ln : ℚ → ℚ
  exp : ℚ → ℚ

namespace MathUtilities

/-- Model of `MathUtilities::isNaN` — true exactly on the NaN sentinel
(`d != d` in the source). -/
def isNaN (x : Option ℚ) : Bool := x.isNone

/-- Addition of C doubles where one operand may be NaN: NaN propagates.
Used for the `lnOfX + eln(...)` sums inside `elnsum`. -/
def ldAdd (a : ℚ) : Option ℚ → Option ℚ
  | none => none
  | some b => some (a + b)

/-- Model of `MathUtilities::eexp` — extended exponential: 0 on the NaN sentinel,
otherwise `exp`. -/
def eexp (F : TransFns) (x : Option ℚ) : ℚ :=
  match x with
  | none => 0
  | some v => F.exp v

/-- Model of `MathUtilities::eln` — extended logarithm: the NaN sentinel on 0,
`ln` on positive input, and `throw out_of_range("Negative Input Error")`
otherwise (in particular on negative input; a NaN argument also falls
through both comparisons and throws, exactly as in the source). -/
def eln (F : TransFns) (x : Option ℚ) : Except String (Option ℚ) :=
  match x with
  | none => .error "Negative Input Error"
  | some v =>
    if v = 0 then .ok none
    else if v > 0 then .ok (some (F.ln v))
    else .error "Negative Input Error"

/-- Model of `MathUtilities::elnsum` — log of a sum: if either input is the NaN
sentinel, the other input is returned; otherwise the shift-and-add
identity `max + eln(1 + exp(min - max))` is computed. -/
def elnsum (F : TransFns) : Option ℚ → Option ℚ → Except String (Option ℚ)
  | none, y => .ok y
  | some a, none => .ok (some a)
  | some a, some b =>
    if a > b then
      match eln F (some (1 + F.exp (b - a))) with
      | .error e => .error e
      | .ok r => .ok (ldAdd a r)
    else
      match eln F (some (1 + F.exp (a - b))) with
      | .error e => .error e
      | .ok r => .ok (ldAdd b r)

/-- Model of `MathUtilities::elnprod` — log of a product: the NaN sentinel
propagates, otherwise the logs are added. -/
def elnprod : Option ℚ → Option ℚ → Option ℚ
  | none, _ => none
  | some _, none => none
  | some a, some b => some (a + b)

end MathUtilities

/-- A concrete instantiation of the abstracted transcendental functions,
used by witnesses: both `ln` and `exp` are the identity. -/
def idFns : TransFns := ⟨fun q => q, fun q => q⟩

/-- A concrete instantiation with a nonnegative `exp`, used by witnesses
of theorems that assume `exp` nonnegative. -/
def oneFns : TransFns := ⟨fun q => q, fun _ => 1⟩

namespace MathUtilities

/-- C8: `eln` on a numeric input raises the negative-input error iff the
input is strictly negative; on 0 it returns the NaN sentinel without
raising; on positive input it returns the (abstracted) natural
logarithm.  `eexp` and `elnprod` are total functions of the embedding,
and `elnsum` returns without raising whenever either input is the
sentinel (a zero-probability value). -/
theorem eln_error_iff_neg (F : TransFns) (x : ℚ) :
    (eln F (some x) = .error "Negative Input Error" ↔ x < 0) ∧
    (x = 0 → eln F (some x) = .ok none) ∧
    (0 < x → eln F (some x) = .ok (some (F.ln x))) ∧
    (∀ y, elnsum F none y = .ok y ∧ elnsum F y none = .ok y) := by
  refine ⟨?_, ?_, ?_, ?_⟩
  · constructor
    · intro h
      by_contra hx
      push_neg at hx
      rcases eq_or_lt_of_le hx with h0 | h0
      · simp [eln, h0.symm] at h
      · simp [eln, h0, ne_of_gt h0] at h
    · intro hx
      simp [eln, ne_of_lt hx, not_lt.mpr hx.le]
  · intro hx
    simp [eln, hx]
  · intro hx
    simp [eln, ne_of_gt hx, hx]
  · intro y
    cases y with
    | none => exact ⟨rfl, rfl⟩
    | some b => exact ⟨rfl, rfl⟩

/-- Witness for C8 at concrete inputs. -/
theorem eln_error_iff_neg_witness :
    eln idFns (some (-2 : ℚ)) = .error "Negative Input Error" ∧
    eln idFns (some (0 : ℚ)) = .ok none ∧
    eln idFns (some (3 : ℚ)) = .ok (some (idFns.ln 3)) :=
  ⟨(eln_error_iff_neg idFns (-2)).1.mpr (by norm_num),
   (eln_error_iff_neg idFns 0).2.1 rfl,
   (eln_error_iff_neg idFns 3).2.2.1 (by norm_num)⟩

/-- C9: `elnsum` is commutative, returns the non-sentinel input
unchanged when the other input is the sentinel, and returns the
sentinel when both inputs are the sentinel. -/
theorem elnsum_comm_sentinel (F : TransFns) :
    (∀ x y, elnsum F x y = elnsum F y x) ∧
    (∀ x, elnsum F none x = .ok x ∧ elnsum F x none = .ok x) ∧
    elnsum F none none = .ok (none : Option ℚ) := by
  refine ⟨?_, ?_, rfl⟩
  · intro x y
    match x, y with
    | none, none => rfl
    | none, some b => rfl
    | some a, none => rfl
    | some a, some b =>
      rcases lt_trichotomy a b with h | h | h
      · simp [elnsum, not_lt.mpr h.le, h]
      · subst h
        simp [elnsum]
      · simp [elnsum, not_lt.mpr h.le, h]
  · intro x
    cases x with
    | none => exact ⟨rfl, rfl⟩
    | some a => exact ⟨rfl, rfl⟩

/-- Helper: with a nonnegative model of `exp`, `elnsum` on two
non-sentinel inputs succeeds with a non-sentinel result. -/
theorem elnsum_ok_of_exp_nonneg (F : TransFns) (hexp : ∀ d, 0 ≤ F.exp d)
    (a b : ℚ) : ∃ r : ℚ, elnsum F (some a) (some b) = .ok (some r) := by
  have harg : ∀ d : ℚ, (0 : ℚ) < 1 + F.exp d := by
    intro d
    have := hexp d
    linarith
  by_cases hab : a > b
  · refine ⟨a + F.ln (1 + F.exp (b - a)), ?_⟩
    simp [elnsum, hab, eln, ne_of_gt (harg (b - a)), harg (b - a), ldAdd]
  · refine ⟨b + F.ln (1 + F.exp (a - b)), ?_⟩
    simp [elnsum, hab, eln, ne_of_gt (harg (a - b)), harg (a - b), ldAdd]

/-- Helper: with a nonnegative model of `exp`, `elnsum` never raises,
on any two inputs. -/
theorem elnsum_ok_total (F : TransFns) (hexp : ∀ d, 0 ≤ F.exp d)
    (x y : Option ℚ) : ∃ r, elnsum F x y = .ok r := by
  match x, y with
  | none, y => exact ⟨y, rfl⟩
  | some a, none => exact ⟨some a, rfl⟩
  | some a, some b =>
    obtain ⟨r, hr⟩ := elnsum_ok_of_exp_nonneg F hexp a b
    exact ⟨some r, hr⟩

/-- C10: on two non-sentinel inputs, and for any nonnegative model of
`exp` (true of the real exponential, including its underflow-to-0
behaviour), `elnsum` neither raises nor returns the sentinel: its
internal `eln` call receives `1 + exp(min - max) ≥ 1`, so the zero and
negative branches of `eln` are unreachable from `elnsum`. -/
theorem elnsum_finite_total (F : TransFns) (hexp : ∀ d, 0 ≤ F.exp d)
    (a b : ℚ) : ∃ r : ℚ, elnsum F (some a) (some b) = .ok (some r) :=
  elnsum_ok_of_exp_nonneg F hexp a b

/-- Witness for C10 at concrete inputs. -/
theorem elnsum_finite_total_witness :
    ∃ r : ℚ, elnsum oneFns (some 1) (some 2) = .ok (some r) :=
  elnsum_finite_total oneFns (fun _ => by norm_num [oneFns]) 1 2

end MathUtilities

/-- Value domain for a stored log probability: C doubles restricted to
the three cases the setters can produce — the quiet-NaN sentinel,
negative infinity (what C `log(0)` returns), and finite values. -/
inductive CLogVal
  | nan
  | neginf
  | fin (q : ℚ)
deriving DecidableEq

/-- The C library `log` over the full real line: `-inf` at 0, NaN on
negative input, and the (abstracted) natural logarithm on positive
input. -/
def cppLog (F : TransFns) (v : ℚ) : CLogVal :=
  if v = 0 then .neginf
  else if 0 < v then .fin (F.ln v)
  else .nan

/-- Pointwise update of a singly-indexed table. -/
def upd1 {α : Type} (f : ℕ → α) (i : ℕ) (v : α) : ℕ → α :=
  fun j => if j = i then v else f j

/-- Pointwise update of a doubly-indexed table. -/
def upd2 {α : Type} (f : ℕ → ℕ → α) (i k : ℕ) (v : α) : ℕ → ℕ → α :=
  fun j l => if j = i ∧ l = k then v else f j l

/-- Pointwise update of a state/residue-indexed table. -/
def updr {α β : Type} [DecidableEq β] (f : ℕ → β → α) (i : ℕ) (c : β)
    (v : α) : ℕ → β → α :=
  fun j d => if j = i ∧ d = c then v else f j d

/-- The 2-state, single-character `HMMProbabilities` variant
(src/HMMProbabilities.cpp): tables of probabilities and of their stored
logs, modelled as total functions. -/
structure HMMProbabilitiesChar where
  initiationProbabilities : ℕ → ℚ
  logInitiationProbabilities : ℕ → CLogVal
  transitionProbabilities : ℕ → ℕ → ℚ
  logTransitionProbabilities : ℕ → ℕ → CLogVal
  emissionProbabilities : ℕ → Char → ℚ
  logEmissionProbabilities : ℕ → Char → CLogVal

namespace HMMProbabilitiesChar

/-- A freshly default-constructed object (`new HMMProbabilities()`);
entries not yet set are modelled as 0 probability with a NaN log. -/
def empty : HMMProbabilitiesChar :=
  ⟨fun _ => 0, fun _ => .nan, fun _ _ => 0, fun _ _ => .nan,
   fun _ _ => 0, fun _ _ => .nan⟩

/-- Char-variant `setInitiationProbability`: stores the value and the
raw C `log` of the value (no zero guard in this variant). -/
def setInitiationProbability (F : TransFns) (p : HMMProbabilitiesChar)
    (state : ℕ) (value : ℚ) : HMMProbabilitiesChar :=
  { p with
    initiationProbabilities := upd1 p.initiationProbabilities state value
    logInitiationProbabilities :=
      upd1 p.logInitiationProbabilities state (cppLog F value) }

/-- Char-variant `setTransitionProbability`: stores the value and the
raw C `log` of the value (no zero guard in this variant). -/
def setTransitionProbability (F : TransFns) (p : HMMProbabilitiesChar)
    (beginState endState : ℕ) (value : ℚ) : HMMProbabilitiesChar :=
  { p with
    transitionProbabilities :=
      upd2 p.transitionProbabilities beginState endState value
    logTransitionProbabilities :=
      upd2 p.logTransitionProbabilities beginState endState (cppLog F value) }

/-- Char-variant `setEmissionProbability`: stores the value and the
raw C `log` of the value (no zero guard in this variant). -/
def setEmissionProbability (F : TransFns) (p : HMMProbabilitiesChar)
    (state : ℕ) (residue : Char) (value : ℚ) : HMMProbabilitiesChar :=
  { p with
    emissionProbabilities := updr p.emissionProbabilities state residue value
    logEmissionProbabilities :=
      updr p.logEmissionProbabilities state residue (cppLog F value) }

end HMMProbabilitiesChar

/-- The stored log value computed by the k-mer-variant setters
(src/unnamed/part_001): the NaN sentinel when the probability is
exactly 0, otherwise the raw C `log`. -/
def kmerLog (F : TransFns) (v : ℚ) : CLogVal :=
  if v = 0 then .nan else cppLog F v

/-- The 12-state, trinucleotide-string `HMMProbabilities` variant
(src/unnamed/part_001): emission tables are keyed by the residue string
(the source keys them by `emissionResidueMap`, an injective index map,
which this embedding composes away). -/
structure HMMProbabilitiesKmer where
  initiationProbabilities : ℕ → ℚ
  logInitiationProbabilities : ℕ → CLogVal
  transitionProbabilities : ℕ → ℕ → ℚ
  logTransitionProbabilities : ℕ → ℕ → CLogVal
  emissionProbabilities : ℕ → String → ℚ
  logEmissionProbabilities : ℕ → String → CLogVal

namespace HMMProbabilitiesKmer

/-- K-mer-variant `setInitiationProbability`: stores the value, and the
NaN sentinel as its log when the value is exactly 0, else `log`. -/
def setInitiationProbability (F : TransFns) (p : HMMProbabilitiesKmer)
    (state : ℕ) (value : ℚ) : HMMProbabilitiesKmer :=
  { p with
    initiationProbabilities := upd1 p.initiationProbabilities state value
    logInitiationProbabilities :=
      upd1 p.logInitiationProbabilities state (kmerLog F value) }

/-- K-mer-variant `setTransitionProbability`: stores the value, and the
NaN sentinel as its log when the value is exactly 0, else `log`. -/
def setTransitionProbability (F : TransFns) (p : HMMProbabilitiesKmer)
    (beginState endState : ℕ) (value : ℚ) : HMMProbabilitiesKmer :=
  { p with
    transitionProbabilities :=
      upd2 p.transitionProbabilities beginState endState value
    logTransitionProbabilities :=
      upd2 p.logTransitionProbabilities beginState endState (kmerLog F value) }

/-- K-mer-variant `setEmissionProbability`: stores the value, and the
NaN sentinel as its log when the value is exactly 0, else `log`. -/
def setEmissionProbability (F : TransFns) (p : HMMProbabilitiesKmer)
    (state : ℕ) (residue : String) (value : ℚ) : HMMProbabilitiesKmer :=
  { p with
    emissionProbabilities := updr p.emissionProbabilities state residue value
    logEmissionProbabilities :=
      updr p.logEmissionProbabilities state residue (kmerLog F value) }

end HMMProbabilitiesKmer

/-- C2 counterexample: in the char variant
(src/HMMProbabilities.cpp), setting an initiation probability to
exactly 0 stores `log(0) = -inf` as the log probability — not the
distinguished NaN sentinel that the extended-log layer uses for
log 0. -/
theorem char_setter_zero_stores_neginf :
    (HMMProbabilitiesChar.setInitiationProbability idFns
        HMMProbabilitiesChar.empty 0 0).logInitiationProbabilities 0 =
      CLogVal.neginf ∧
    CLogVal.neginf ≠ CLogVal.nan := by
  constructor
  · simp [HMMProbabilitiesChar.setInitiationProbability, upd1, cppLog,
      HMMProbabilitiesChar.empty]
  · intro h
    cases h

/-- C2 (amended): in the k-mer variant (src/unnamed/part_001) every
setter stores the NaN sentinel as the log when the probability is
exactly 0 and the natural logarithm when it is positive, keeping the
stored probability and its stored log consistent; the char variant
(src/HMMProbabilities.cpp) instead stores the raw C `log` of the value,
so a probability of exactly 0 stores `-inf` rather than the
sentinel. -/
theorem setter_log_consistency (F : TransFns) (p : HMMProbabilitiesKmer)
    (q : HMMProbabilitiesChar) (s t : ℕ) (r : String) (c : Char) (v : ℚ) :
    ((HMMProbabilitiesKmer.setInitiationProbability F p s v).initiationProbabilities s = v ∧
     (v = 0 → (HMMProbabilitiesKmer.setInitiationProbability F p s v).logInitiationProbabilities s = .nan) ∧
     (0 < v → (HMMProbabilitiesKmer.setInitiationProbability F p s v).logInitiationProbabilities s = .fin (F.ln v))) ∧
    ((HMMProbabilitiesKmer.setTransitionProbability F p s t v).transitionProbabilities s t = v ∧
     (v = 0 → (HMMProbabilitiesKmer.setTransitionProbability F p s t v).logTransitionProbabilities s t = .nan) ∧
     (0 < v → (HMMProbabilitiesKmer.setTransitionProbability F p s t v).logTransitionProbabilities s t = .fin (F.ln v))) ∧
    ((HMMProbabilitiesKmer.setEmissionProbability F p s r v).emissionProbabilities s r = v ∧
     (v = 0 → (HMMProbabilitiesKmer.setEmissionProbability F p s r v).logEmissionProbabilities s r = .nan) ∧
     (0 < v → (HMMProbabilitiesKmer.setEmissionProbability F p s r v).logEmissionProbabilities s r = .fin (F.ln v))) ∧
    ((HMMProbabilitiesChar.setInitiationProbability F q s v).initiationProbabilities s = v ∧
     (HMMProbabilitiesChar.setInitiationProbability F q s v).logInitiationProbabilities s = cppLog F v ∧
     (v = 0 → (HMMProbabilitiesChar.setInitiationProbability F q s v).logInitiationProbabilities s = .neginf)) ∧
    ((HMMProbabilitiesChar.setTransitionProbability F q s t v).transitionProbabilities s t = v ∧
     (HMMProbabilitiesChar.setTransitionProbability F q s t v).logTransitionProbabilities s t = cppLog F v ∧
     (v = 0 → (HMMProbabilitiesChar.setTransitionProbability F q s t v).logTransitionProbabilities s t = .neginf)) ∧
    ((HMMProbabilitiesChar.setEmissionProbability F q s c v).emissionProbabilities s c = v ∧
     (HMMProbabilitiesChar.setEmissionProbability F q s c v).logEmissionProbabilities s c = cppLog F v ∧
     (v = 0 → (HMMProbabilitiesChar.setEmissionProbability F q s c v).logEmissionProbabilities s c = .neginf)) := by
  refine ⟨⟨?_, ?_, ?_⟩, ⟨?_, ?_, ?_⟩, ⟨?_, ?_, ?_⟩,
      ⟨?_, ?_, ?_⟩, ⟨?_, ?_, ?_⟩, ⟨?_, ?_, ?_⟩⟩ <;>
    try intro hv
  all_goals
    simp_all [HMMProbabilitiesKmer.setInitiationProbability,
      HMMProbabilitiesKmer.setTransitionProbability,
      HMMProbabilitiesKmer.setEmissionProbability,
      HMMProbabilitiesChar.setInitiationProbability,
      HMMProbabilitiesChar.setTransitionProbability,
      HMMProbabilitiesChar.setEmissionProbability,
      upd1, upd2, updr, kmerLog, cppLog]
  all_goals simp [ne_of_gt hv, hv]

/-- Witness for the amended C2 theorem at concrete inputs. -/
theorem setter_log_consistency_witness :
    (HMMProbabilitiesKmer.setInitiationProbability idFns
        ⟨fun _ => 0, fun _ => .nan, fun _ _ => 0, fun _ _ => .nan,
         fun _ _ => 0, fun _ _ => .nan⟩ 2 0).logInitiationProbabilities 2 =
      .nan ∧
    (HMMProbabilitiesChar.setTransitionProbability idFns
        HMMProbabilitiesChar.empty 0 1 0).logTransitionProbabilities 0 1 =
      .neginf :=
  ⟨((setter_log_consistency idFns
      ⟨fun _ => 0, fun _ => .nan, fun _ _ => 0, fun _ _ => .nan,
       fun _ _ => 0, fun _ _ => .nan⟩
      HMMProbabilitiesChar.empty 2 1 "AAA" 'A' 0).1.2.1) rfl,
   ((setter_log_consistency idFns
      ⟨fun _ => 0, fun _ => .nan, fun _ _ => 0, fun _ _ => .nan,
       fun _ _ => 0, fun _ _ => .nan⟩
      HMMProbabilitiesChar.empty 0 1 "AAA" 'A' 0).2.2.2.2.1.2.2) rfl⟩

namespace HMMProbabilitiesChar

/-- Char-variant getter `initiationProbability`. -/
def initiationProbability (p : HMMProbabilitiesChar) (state : ℕ) : ℚ :=
  p.initiationProbabilities state

/-- Char-variant getter `transitionProbability`. -/
def transitionProbability (p : HMMProbabilitiesChar)
    (beginState endState : ℕ) : ℚ :=
  p.transitionProbabilities beginState endState

/-- Char-variant getter `emissionProbability`. -/
def emissionProbability (p : HMMProbabilitiesChar) (state : ℕ)
    (residue : Char) : ℚ :=
  p.emissionProbabilities state residue

end HMMProbabilitiesChar

namespace HMMViterbiResults

/-- Model of `HMMViterbiResults::calculateProbabilities`: builds a fresh
`HMMProbabilities`, copies the two initiation probabilities and the
eight (state, residue) emission probabilities from the previous
iteration's model, then sets each transition probability to the path's
transition count divided by the source state's count.  The integer
counts of the source are modelled as naturals, the int-to-double
division as division in ℚ. -/
def calculateProbabilities (F : TransFns) (stateCounts : ℕ → ℕ)
    (transitionCounts : ℕ → ℕ → ℕ) (previousProbs : HMMProbabilitiesChar) :
    HMMProbabilitiesChar :=
  let p := HMMProbabilitiesChar.empty
  let p := p.setInitiationProbability F 0 (previousProbs.initiationProbability 0)
  let p := p.setInitiationProbability F 1 (previousProbs.initiationProbability 1)
  let p := p.setEmissionProbability F 0 'A' (previousProbs.emissionProbability 0 'A')
  let p := p.setEmissionProbability F 0 'T' (previousProbs.emissionProbability 0 'T')
  let p := p.setEmissionProbability F 0 'C' (previousProbs.emissionProbability 0 'C')
  let p := p.setEmissionProbability F 0 'G' (previousProbs.emissionProbability 0 'G')
  let p := p.setEmissionProbability F 1 'A' (previousProbs.emissionProbability 1 'A')
  let p := p.setEmissionProbability F 1 'T' (previousProbs.emissionProbability 1 'T')
  let p := p.setEmissionProbability F 1 'C' (previousProbs.emissionProbability 1 'C')
  let p := p.setEmissionProbability F 1 'G' (previousProbs.emissionProbability 1 'G')
  let p := p.setTransitionProbability F 0 0
    ((transitionCounts 0 0 : ℚ) / (stateCounts 0 : ℚ))
  let p := p.setTransitionProbability F 0 1
    ((transitionCounts 0 1 : ℚ) / (stateCounts 0 : ℚ))
  let p := p.setTransitionProbability F 1 0
    ((transitionCounts 1 0 : ℚ) / (stateCounts 1 : ℚ))
  let p := p.setTransitionProbability F 1 1
    ((transitionCounts 1 1 : ℚ) / (stateCounts 1 : ℚ))
  p

end HMMViterbiResults

/-- C6: the model re-estimated at the end of a Viterbi training
iteration keeps the previous iteration's initiation and emission
probabilities unchanged, and recomputes exactly the transition
probabilities as (transition count from state i to state j) / (count of
state i in the decoded path).  The positive-count hypotheses restrict
the statement to the inputs on which division in ℚ is a faithful model
of the source's floating-point division (at a zero denominator the C
code would produce inf/NaN instead). -/
theorem viterbi_reestimation_frame (F : TransFns)
    (stateCounts : ℕ → ℕ) (transitionCounts : ℕ → ℕ → ℕ)
    (prev : HMMProbabilitiesChar)
    (h0 : 0 < stateCounts 0) (h1 : 0 < stateCounts 1) :
    (∀ s, s < 2 →
      (HMMViterbiResults.calculateProbabilities F stateCounts
          transitionCounts prev).initiationProbability s =
        prev.initiationProbability s) ∧
    (∀ s, s < 2 → ∀ c, c ∈ ['A', 'T', 'C', 'G'] →
      (HMMViterbiResults.calculateProbabilities F stateCounts
          transitionCounts prev).emissionProbability s c =
        prev.emissionProbability s c) ∧
    (∀ i j, i < 2 → j < 2 →
      (HMMViterbiResults.calculateProbabilities F stateCounts
          transitionCounts prev).transitionProbability i j =
        (transitionCounts i j : ℚ) / (stateCounts i : ℚ)) := by
  refine ⟨?_, ?_, ?_⟩
  · intro s hs
    interval_cases s <;>
      simp [HMMViterbiResults.calculateProbabilities,
        HMMProbabilitiesChar.setInitiationProbability,
        HMMProbabilitiesChar.setTransitionProbability,
        HMMProbabilitiesChar.setEmissionProbability,
        HMMProbabilitiesChar.initiationProbability, upd1]
  · intro s hs c hc
    interval_cases s <;> fin_cases hc <;>
      simp [HMMViterbiResults.calculateProbabilities,
        HMMProbabilitiesChar.setInitiationProbability,
        HMMProbabilitiesChar.setTransitionProbability,
        HMMProbabilitiesChar.setEmissionProbability,
        HMMProbabilitiesChar.emissionProbability, updr]
  · intro i j hi hj
    interval_cases i <;> interval_cases j <;>
      simp [HMMViterbiResults.calculateProbabilities,
        HMMProbabilitiesChar.setInitiationProbability,
        HMMProbabilitiesChar.setTransitionProbability,
        HMMProbabilitiesChar.setEmissionProbability,
        HMMProbabilitiesChar.transitionProbability, upd2]

/-- Witness for C6 at concrete inputs. -/
theorem viterbi_reestimation_frame_witness :
    (HMMViterbiResults.calculateProbabilities idFns
        (fun _ => 2) (fun _ _ => 1)
        HMMProbabilitiesChar.empty).transitionProbability 0 1 =
      ((1 : ℚ) / (2 : ℚ)) := by
  have h := (viterbi_reestimation_frame idFns (fun _ => 2) (fun _ _ => 1)
    HMMProbabilitiesChar.empty (by norm_num) (by norm_num)).2.2 0 1
    (by norm_num) (by norm_num)
  simpa using h

/-- The heap of allocated `HMMProbabilities` objects together with the
`HiddenMarkovModel::probabilities` pointer, modelled as an arena of
objects and an index into it.  `new` appends to the arena; a pointer
assignment changes `cur`; an in-place setter call rewrites the arena
entry at `cur`. -/
structure PStore where
  arena : List HMMProbabilitiesChar
  cur : ℕ

/-- The model update closing a Viterbi training iteration
(`gatherViterbiResults` → `HMMViterbiResults::calculateProbabilities`,
then `probabilities = aViterbiResults->probabilities`):
`calculateProbabilities` allocates a fresh object (`new
HMMProbabilities()`) and populates it reading the previous model, and
the orchestrator then repoints `probabilities` at the fresh object. -/
def viterbiModelUpdate (F : TransFns) (stateCounts : ℕ → ℕ)
    (transitionCounts : ℕ → ℕ → ℕ) (s : PStore) : PStore :=
  let prev := s.arena.getD s.cur HMMProbabilitiesChar.empty
  let newProbs := HMMViterbiResults.calculateProbabilities F stateCounts
    transitionCounts prev
  { arena := s.arena ++ [newProbs], cur := s.arena.length }

/-- Model of `HiddenMarkovModel::calculateBaumWelchInitiationProbabilities`: for
each node of the first trellis position (given as its state and its log
conditional probability), calls
`probabilities->setInitiationProbability(state, eexp(logCondProb))` —
an in-place write through the current `probabilities` pointer. -/
def calculateBaumWelchInitiationProbabilities (F : TransFns)
    (firstPositionNodes : List (ℕ × Option ℚ)) (s : PStore) : PStore :=
  { arena := s.arena.set s.cur
      (firstPositionNodes.foldl
        (fun p nd =>
          p.setInitiationProbability F nd.1 (MathUtilities.eexp F nd.2))
        (s.arena.getD s.cur HMMProbabilitiesChar.empty))
    cur := s.cur }

/-- C5 counterexample: a Baum-Welch re-estimation step writes to the
very model object that the iteration's forward/backward pass read: the
`probabilities` pointer is unchanged while the object it points at has
changed. -/
theorem bw_reestimation_mutates_in_place :
    (calculateBaumWelchInitiationProbabilities oneFns [(1, some 0)]
        ⟨[HMMProbabilitiesChar.empty], 0⟩).cur = 0 ∧
    ((calculateBaumWelchInitiationProbabilities oneFns [(1, some 0)]
          ⟨[HMMProbabilitiesChar.empty], 0⟩).arena.getD 0
        HMMProbabilitiesChar.empty).initiationProbability 1 ≠
      (HMMProbabilitiesChar.empty).initiationProbability 1 := by
  constructor
  · rfl
  · simp [calculateBaumWelchInitiationProbabilities,
      HMMProbabilitiesChar.setInitiationProbability,
      HMMProbabilitiesChar.initiationProbability,
      HMMProbabilitiesChar.empty, upd1, MathUtilities.eexp, oneFns]

/-- C5 (amended): Viterbi training does replace the model between
iterations — the re-estimation step writes only a freshly allocated
object, leaves every previously allocated object unchanged, and
repoints `probabilities` at the fresh object; Baum-Welch re-estimation
instead mutates the current model object in place through its setters,
leaving the `probabilities` pointer and all other objects unchanged. -/
theorem model_replacement_discipline (F : TransFns)
    (stateCounts : ℕ → ℕ) (transitionCounts : ℕ → ℕ → ℕ)
    (firstPositionNodes : List (ℕ × Option ℚ)) (s : PStore) :
    ((viterbiModelUpdate F stateCounts transitionCounts s).arena.take
        s.arena.length = s.arena ∧
      (viterbiModelUpdate F stateCounts transitionCounts s).cur =
        s.arena.length ∧
      (s.cur < s.arena.length →
        (viterbiModelUpdate F stateCounts transitionCounts s).cur ≠ s.cur)) ∧
    ((calculateBaumWelchInitiationProbabilities F firstPositionNodes s).cur =
        s.cur ∧
      (∀ j, j ≠ s.cur →
        (calculateBaumWelchInitiationProbabilities F firstPositionNodes
            s).arena.get? j = s.arena.get? j) ∧
      (calculateBaumWelchInitiationProbabilities F firstPositionNodes
          s).arena.get? s.cur =
        (s.arena.get? s.cur).map (fun _ =>
          firstPositionNodes.foldl
            (fun p nd =>
              p.setInitiationProbability F nd.1 (MathUtilities.eexp F nd.2))
            (s.arena.getD s.cur HMMProbabilitiesChar.empty))) := by
  refine ⟨⟨?_, rfl, ?_⟩, rfl, ?_, ?_⟩
  · simp [viterbiModelUpdate, List.take_left]
  · intro h
    simpa [viterbiModelUpdate] using Nat.ne_of_gt h
  · intro j hj
    simp [calculateBaumWelchInitiationProbabilities, List.get?_eq_getElem?,
      List.getElem?_set_ne (Ne.symm hj)]
  · by_cases h : s.cur < s.arena.length
    · simp [calculateBaumWelchInitiationProbabilities, List.get?_eq_getElem?,
        List.getElem?_set_self h, List.getElem?_eq_getElem h]
    · have hle : s.arena.length ≤ s.cur := le_of_not_lt h
      simp [calculateBaumWelchInitiationProbabilities, List.get?_eq_getElem?,
        List.getElem?_eq_none, hle]

/-- Witness for the amended C5 theorem at concrete inputs. -/
theorem model_replacement_discipline_witness :
    (viterbiModelUpdate oneFns (fun _ => 1) (fun _ _ => 1)
        ⟨[HMMProbabilitiesChar.empty], 0⟩).cur ≠ 0 :=
  (model_replacement_discipline oneFns (fun _ => 1) (fun _ _ => 1) []
    ⟨[HMMProbabilitiesChar.empty], 0⟩).1.2.2 (by norm_num)

/-- The value of `previousLogLikelihood` at the start of iteration `n`
of `baumWelchTraining` (0-indexed): 0 before the first iteration (its
initialisation in the source), afterwards the previous iteration's
likelihood.  `L n` abstracts the log-likelihood
(`model.back()->logLikelihood()`) computed by iteration `n` over the
evolving model. -/
def previousLogLikelihood (L : ℕ → ℚ) : ℕ → ℚ
  | 0 => 0
  | n + 1 => L n

/-- The convergence test of `baumWelchTraining` at iteration `n`:
`abs(previousLogLikelihood - currentLogLikelihood) < 0.1`. -/
def baumWelchDone (L : ℕ → ℚ) (n : ℕ) : Prop :=
  |previousLogLikelihood L n - L n| < 1 / 10

instance (L : ℕ → ℚ) (n : ℕ) : Decidable (baumWelchDone L n) := by
  unfold baumWelchDone
  infer_instance

/-- The `while (!trainingDone)` loop of `baumWelchTraining`, with a
fuel bound added so that the (possibly nonterminating) source loop can
be embedded as a total function: starting at iteration `n`, runs
iterations until the convergence test passes, returning the final value
of `iterationCounter` (the number of iterations run), or `none` if the
fuel is exhausted first. -/
def baumWelchLoop (L : ℕ → ℚ) : ℕ → ℕ → Option ℕ
  | 0, _ => none
  | fuel + 1, n =>
    if baumWelchDone L n then some (n + 1)
    else baumWelchLoop L fuel (n + 1)

/-- The loop `baumWelchLoop` only ever stops by the convergence test: a run that
returns counted to the first convergent iteration. -/
theorem baumWelchLoop_eq_some (L : ℕ → ℚ) :
    ∀ fuel n k, baumWelchLoop L fuel n = some k →
      n < k ∧ baumWelchDone L (k - 1) ∧ ∀ m, n ≤ m → m < k - 1 → ¬baumWelchDone L m := by
  intro fuel
  induction fuel with
  | zero => intro n k h; cases h
  | succ fuel ih =>
    intro n k h
    unfold baumWelchLoop at h
    by_cases hd : baumWelchDone L n
    · rw [if_pos hd] at h
      cases h
      refine ⟨Nat.lt_succ_self n, by simpa using hd, ?_⟩
      intro m hm hm'
      omega
    · rw [if_neg hd] at h
      obtain ⟨hlt, hdone, hmin⟩ := ih (n + 1) k h
      refine ⟨by omega, hdone, ?_⟩
      intro m hm hm'
      rcases eq_or_lt_of_le hm with rfl | hlt'
      · exact hd
      · exact hmin m (by omega) hm'

/-- C4: `baumWelchTraining` terminates exactly when some iteration's
log-likelihood differs from the previous one (0 before the first
iteration) by less than the fixed threshold 0.1 in absolute value;
there is no other stopping condition — with no convergent iteration the
loop runs forever (returns `none` for every fuel bound), and when it
stops, it stops at the first convergent iteration. -/
theorem baumWelch_termination (L : ℕ → ℚ) :
    ((∃ fuel k, baumWelchLoop L fuel 0 = some k) ↔ ∃ n, baumWelchDone L n) ∧
    ((∀ n, ¬baumWelchDone L n) → ∀ fuel n, baumWelchLoop L fuel n = none) ∧
    (∀ fuel k, baumWelchLoop L fuel 0 = some k →
      baumWelchDone L (k - 1) ∧ ∀ m, m < k - 1 → ¬baumWelchDone L m) := by
  have hnever : (∀ n, ¬baumWelchDone L n) →
      ∀ fuel n, baumWelchLoop L fuel n = none := by
    intro hno fuel
    induction fuel with
    | zero => intro n; rfl
    | succ fuel ih =>
      intro n
      unfold baumWelchLoop
      rw [if_neg (hno n)]
      exact ih (n + 1)
  refine ⟨⟨?_, ?_⟩, hnever, ?_⟩
  · rintro ⟨fuel, k, h⟩
    obtain ⟨-, hdone, -⟩ := baumWelchLoop_eq_some L fuel 0 k h
    exact ⟨k - 1, hdone⟩
  · rintro ⟨n, hn⟩
    have : ∀ fuel m, m + fuel = n + 1 → m ≤ n → baumWelchDone L n →
        ∃ k, baumWelchLoop L fuel m = some k := by
      intro fuel
      induction fuel with
      | zero =>
        intro m hm hmn _
        exact absurd hm (by omega)
      | succ fuel ih =>
        intro m hm hmn hdn
        by_cases hd : baumWelchDone L m
        · exact ⟨m + 1, by unfold baumWelchLoop; rw [if_pos hd]⟩
        · have hmn' : m + 1 ≤ n := by
            rcases eq_or_lt_of_le hmn with rfl | hlt
            · exact absurd hdn hd
            · omega
          obtain ⟨k, hk⟩ := ih (m + 1) (by omega) hmn' hdn
          exact ⟨k, by unfold baumWelchLoop; rw [if_neg hd]; exact hk⟩
    obtain ⟨k, hk⟩ := this (n + 1) 0 (by omega) (Nat.zero_le n) hn
    exact ⟨n + 1, k, hk⟩
  · intro fuel k h
    obtain ⟨-, hdone, hmin⟩ := baumWelchLoop_eq_some L fuel 0 k h
    exact ⟨hdone, fun m hm => hmin m (Nat.zero_le m) hm⟩

/-- Witness for C4 at a concrete likelihood stream: the constant
stream 5 first converges at iteration 1 (|0 - 5| ≥ 0.1 then
|5 - 5| < 0.1), so the loop stops with counter 2. -/
theorem baumWelch_termination_witness :
    ∃ n, baumWelchDone (fun _ => (5 : ℚ)) n :=
  (baumWelch_termination (fun _ => (5 : ℚ))).1.mp
    ⟨2, 2, by norm_num [baumWelchLoop, baumWelchDone, previousLogLikelihood]⟩

/-- The stored log values of the probability model as read by the
Viterbi pass.  The pass combines them with the raw C `+` and `>`
operators (not the extended-log primitives), so this embedding covers
the runs in which the stored logs are finite — which holds whenever all
model probabilities are positive, as in the shipped initial and test
models.  The emission table takes an optional residue because the
synthetic start node carries the reserved start residue (modelled as
`none`); the start node's emission is never queried. -/
structure HMMParams where
  logInit : ℕ → ℚ
  logTrans : ℕ → ℕ → ℚ
  logEmis : ℕ → Option Char → ℚ

/-- Model of `HMMTransition::logProbability`: the initiation log probability of
the end state when the source is the start node (state 0), otherwise
the transition log probability from source state to end state. -/
def transitionLogProbability (P : HMMParams) (startState endState : ℕ) : ℚ :=
  if startState = 0 then P.logInit endState else P.logTrans startState endState

/-- An `HMMNode` as used by the Viterbi pass: position id, state,
residue (`none` for the start node's reserved character),
`highestWeight`, and `highestWeightPreviousNode` modelled as the
(position id, state) coordinates of the pointed-to node (`none` models
`NULL`). -/
structure VNode where
  id : ℕ
  state : ℕ
  residue : Option Char
  highestWeight : ℚ
  back : Option (ℕ × ℕ)
deriving DecidableEq

/-- The constant `DBL_MAX`, exactly: (2^53 - 1) * 2^971. -/
def dblMax : ℚ := (2 ^ 53 - 1) * 2 ^ 971

/-- The score the Viterbi pass computes for one incoming transition:
source weight + transition log probability + the node's emission log
probability. -/
def nodeScore (P : HMMParams) (node src : VNode) : ℚ :=
  src.highestWeight + transitionLogProbability P src.state node.state +
    P.logEmis node.state node.residue

/-- The inner loop of `calculateHighestWeightPath` over a node's
incoming transitions (their creation order is the order of the previous
position's node list): replaces the running (weight, backpointer) pair
whenever a transition's score is strictly greater. -/
def scanTransitions (P : HMMParams) (node : VNode) :
    List VNode → ℚ × Option (ℕ × ℕ) → ℚ × Option (ℕ × ℕ)
  | [], acc => acc
  | src :: rest, (w, bp) =>
    if nodeScore P node src > w then
      scanTransitions P node rest (nodeScore P node src, (src.id, src.state))
    else
      scanTransitions P node rest (w, bp)

/-- The per-node body of `calculateHighestWeightPath`: the weight is
re-initialised to `-DBL_MAX` except on the start node (whose
backpointer is also left alone, as in the source, where only an update
writes it). -/
def updateNode (P : HMMParams) (prevNodes : List VNode) (node : VNode) :
    VNode :=
  let init : ℚ × Option (ℕ × ℕ) :=
    if node.id ≠ 0 then (-dblMax, node.back) else (node.highestWeight, node.back)
  let r := scanTransitions P node prevNodes init
  { node with highestWeight := r.1, back := r.2 }

/-- Model of `HiddenMarkovModel::calculateHighestWeightPath` over one position,
whose nodes each carry the previous position's node list as their
incoming-transition sources. -/
def calculateHighestWeightPath (P : HMMParams) (prevNodes nodes : List VNode) :
    List VNode :=
  nodes.map (updateNode P prevNodes)

/-- The running maximum that `scanTransitions` maintains. -/
def foldScore (P : HMMParams) (node : VNode) (lst : List VNode) (w : ℚ) : ℚ :=
  lst.foldl (fun a s => max a (nodeScore P node s)) w

theorem foldScore_nil (P : HMMParams) (node : VNode) (w : ℚ) :
    foldScore P node [] w = w := rfl

theorem foldScore_cons (P : HMMParams) (node s : VNode) (rest : List VNode)
    (w : ℚ) :
    foldScore P node (s :: rest) w =
      foldScore P node rest (max w (nodeScore P node s)) := rfl

theorem le_foldScore (P : HMMParams) (node : VNode) :
    ∀ (lst : List VNode) (w : ℚ), w ≤ foldScore P node lst w := by
  intro lst
  induction lst with
  | nil => intro w; exact le_refl w
  | cons s rest ih =>
    intro w
    calc w ≤ max w (nodeScore P node s) := le_max_left _ _
    _ ≤ foldScore P node rest (max w (nodeScore P node s)) := ih _
    _ = foldScore P node (s :: rest) w := (foldScore_cons P node s rest w).symm

theorem score_le_foldScore (P : HMMParams) (node : VNode) :
    ∀ (lst : List VNode) (w : ℚ) (s : VNode), s ∈ lst →
      nodeScore P node s ≤ foldScore P node lst w := by
  intro lst
  induction lst with
  | nil => intro w s hs; cases hs
  | cons t rest ih =>
    intro w s hs
    rw [foldScore_cons]
    rcases List.mem_cons.mp hs with rfl | hs
    · calc nodeScore P node s ≤ max w (nodeScore P node s) := le_max_right _ _
      _ ≤ foldScore P node rest _ := le_foldScore P node rest _
    · exact ih _ s hs

theorem foldScore_eq_or (P : HMMParams) (node : VNode) :
    ∀ (lst : List VNode) (w : ℚ),
      foldScore P node lst w = w ∨
        ∃ s ∈ lst, foldScore P node lst w = nodeScore P node s := by
  intro lst
  induction lst with
  | nil => intro w; exact Or.inl rfl
  | cons t rest ih =>
    intro w
    rw [foldScore_cons]
    rcases ih (max w (nodeScore P node t)) with h | ⟨s, hs, h⟩
    · rcases max_cases w (nodeScore P node t) with ⟨hm, -⟩ | ⟨hm, -⟩
      · exact Or.inl (by rw [h, hm])
      · exact Or.inr ⟨t, List.mem_cons_self t rest, by rw [h, hm]⟩
    · exact Or.inr ⟨s, List.mem_cons_of_mem t hs, h⟩

theorem scanTransitions_fst (P : HMMParams) (node : VNode) :
    ∀ (lst : List VNode) (w : ℚ) (bp : Option (ℕ × ℕ)),
      (scanTransitions P node lst (w, bp)).1 = foldScore P node lst w := by
  intro lst
  induction lst with
  | nil => intro w bp; rfl
  | cons s rest ih =>
    intro w bp
    rw [foldScore_cons]
    by_cases h : nodeScore P node s > w
    · rw [scanTransitions, if_pos h, ih, max_eq_right h.le]
    · rw [scanTransitions, if_neg h, ih, max_eq_left (not_lt.mp h)]

theorem scanTransitions_no_update (P : HMMParams) (node : VNode) :
    ∀ (lst : List VNode) (w : ℚ) (bp : Option (ℕ × ℕ)),
      (∀ s ∈ lst, nodeScore P node s ≤ w) →
      scanTransitions P node lst (w, bp) = (w, bp) := by
  intro lst
  induction lst with
  | nil => intro w bp _; rfl
  | cons s rest ih =>
    intro w bp hle
    rw [scanTransitions,
      if_neg (not_lt.mpr (hle s (List.mem_cons_self s rest)))]
    exact ih w bp (fun t ht => hle t (List.mem_cons_of_mem s ht))

theorem scanTransitions_snd (P : HMMParams) (node : VNode) :
    ∀ (lst : List VNode) (w : ℚ) (bp : Option (ℕ × ℕ)),
      w < foldScore P node lst w →
      (scanTransitions P node lst (w, bp)).2 =
        (lst.find? fun s =>
          decide (nodeScore P node s = foldScore P node lst w)).map
          (fun s => (s.id, s.state)) := by
  intro lst
  induction lst with
  | nil =>
    intro w bp hlt
    exact absurd hlt (lt_irrefl w)
  | cons s rest ih =>
    intro w bp hlt
    have hM : foldScore P node (s :: rest) w =
        foldScore P node rest (max w (nodeScore P node s)) :=
      foldScore_cons P node s rest w
    by_cases h : nodeScore P node s > w
    · rw [scanTransitions, if_pos h]
      have hmax : max w (nodeScore P node s) = nodeScore P node s :=
        max_eq_right h.le
      by_cases h2 : nodeScore P node s <
          foldScore P node rest (nodeScore P node s)
      · rw [ih (nodeScore P node s) (s.id, s.state) h2]
        have hne : nodeScore P node s ≠ foldScore P node (s :: rest) w := by
          rw [hM, hmax]
          exact ne_of_lt h2
        rw [List.find?_cons_of_neg _ (by simpa using hne), hM, hmax]
      · have heq : foldScore P node rest (nodeScore P node s) =
            nodeScore P node s :=
          le_antisymm (not_lt.mp h2) (le_foldScore P node rest _)
        have hall : ∀ t ∈ rest, nodeScore P node t ≤ nodeScore P node s := by
          intro t ht
          calc nodeScore P node t
              ≤ foldScore P node rest (nodeScore P node s) :=
                score_le_foldScore P node rest _ t ht
          _ = nodeScore P node s := heq
        rw [scanTransitions_no_update P node rest _ _ hall]
        have hfind : (s :: rest).find? (fun t =>
            decide (nodeScore P node t = foldScore P node (s :: rest) w)) =
              some s := by
          apply List.find?_cons_of_pos
          simp [hM, hmax, heq]
        rw [hfind]
        rfl
    · rw [scanTransitions, if_neg h]
      have hmax : max w (nodeScore P node s) = w :=
        max_eq_left (not_lt.mp h)
      have hM' : foldScore P node (s :: rest) w = foldScore P node rest w := by
        rw [hM, hmax]
      rw [hM'] at hlt
      rw [ih w bp hlt]
      have hne : nodeScore P node s ≠ foldScore P node (s :: rest) w := by
        rw [hM']
        exact ne_of_lt (lt_of_le_of_lt (not_lt.mp h) hlt)
      rw [List.find?_cons_of_neg _ (by simpa using hne), hM']

/-- C1: for a node at a position greater than 0 whose incoming
transitions all score above the `-DBL_MAX` initialiser, the Viterbi
pass sets the node's `highestWeight` to the maximum incoming score
(source weight + transition log probability + the node's emission log
probability), and sets the backpointer to the source node of the first
incoming transition — in creation order, which is the previous
position's node order — achieving that maximum. -/
theorem viterbi_highest_weight (P : HMMParams) (prev nodes : List VNode)
    (node : VNode) (hmem : node ∈ nodes) (hid : node.id ≠ 0)
    (hne : prev ≠ [])
    (hgt : ∀ s ∈ prev, -dblMax < nodeScore P node s) :
    updateNode P prev node ∈ calculateHighestWeightPath P prev nodes ∧
    (∀ s ∈ prev,
      nodeScore P node s ≤ (updateNode P prev node).highestWeight) ∧
    (∃ s ∈ prev,
      (updateNode P prev node).highestWeight = nodeScore P node s) ∧
    (updateNode P prev node).back =
      (prev.find? fun s =>
        decide (nodeScore P node s =
          (updateNode P prev node).highestWeight)).map
        (fun s => (s.id, s.state)) := by
  obtain ⟨s0, hs0⟩ := List.exists_mem_of_ne_nil prev hne
  have hw : (updateNode P prev node).highestWeight =
      foldScore P node prev (-dblMax) := by
    rw [updateNode, if_pos hid]
    exact scanTransitions_fst P node prev (-dblMax) node.back
  have hMgt : -dblMax < foldScore P node prev (-dblMax) :=
    lt_of_lt_of_le (hgt s0 hs0) (score_le_foldScore P node prev (-dblMax) s0 hs0)
  refine ⟨List.mem_map_of_mem _ hmem, ?_, ?_, ?_⟩
  · intro s hs
    rw [hw]
    exact score_le_foldScore P node prev (-dblMax) s hs
  · rcases foldScore_eq_or P node prev (-dblMax) with h | ⟨s, hs, h⟩
    · exact absurd h (ne_of_gt hMgt)
    · exact ⟨s, hs, by rw [hw, h]⟩
  · have hbp : (updateNode P prev node).back =
        (scanTransitions P node prev (-dblMax, node.back)).2 := by
      rw [updateNode, if_pos hid]
    rw [hbp, hw, scanTransitions_snd P node prev (-dblMax) node.back hMgt]

/-- Witness for C1 at a concrete trellis layer: one previous node
(the start node), one current node, all log values 0. -/
theorem viterbi_highest_weight_witness :
    updateNode ⟨fun _ => 0, fun _ _ => 0, fun _ _ => 0⟩ [⟨0, 0, none, 0, none⟩]
        ⟨1, 1, some 'A', 0, none⟩ ∈
      calculateHighestWeightPath ⟨fun _ => 0, fun _ _ => 0, fun _ _ => 0⟩
        [⟨0, 0, none, 0, none⟩] [⟨1, 1, some 'A', 0, none⟩] :=
  (viterbi_highest_weight ⟨fun _ => 0, fun _ _ => 0, fun _ _ => 0⟩
    [⟨0, 0, none, 0, none⟩] [⟨1, 1, some 'A', 0, none⟩]
    ⟨1, 1, some 'A', 0, none⟩ (List.mem_singleton.mpr rfl) (by norm_num)
    (by simp)
    (by
      intro s hs
      rw [List.mem_singleton.mp hs]
      norm_num [nodeScore, transitionLogProbability, dblMax])).1

/-- The synthetic start node created by the default `HMMNode`
constructor: position 0, state 0, the reserved start residue, weight 0,
`NULL` backpointer. -/
def startNode : VNode := ⟨0, 0, none, 0, none⟩

/-- The nodes of `HMMPosition(anId, residue, numStates, model)`: one
node per state 1 .. numStates - 1 carrying the observed residue (the
source leaves `highestWeight` uninitialised; it is overwritten by the
pass before any read, so the embedding picks 0). -/
def mkPosition (numStates id : ℕ) (residue : Char) : List VNode :=
  (List.range' 1 (numStates - 1)).map fun s => ⟨id, s, some residue, 0, none⟩

/-- The fresh-build loop of `buildAndCalculateModel(false)`: walks the
sequence left to right, creating each position, wiring its incoming
transitions to the previous position's nodes, and running the Viterbi
pass on it before moving on. -/
def buildPositions (P : HMMParams) (numStates : ℕ) :
    ℕ → List Char → List VNode → List (List VNode)
  | _, [], _ => []
  | i, c :: rest, prev =>
    let pos := calculateHighestWeightPath P prev (mkPosition numStates i c)
    pos :: buildPositions P numStates (i + 1) rest pos

/-- Model of `buildAndCalculateModel(false)` on an unbuilt model: the start
position followed by one computed position per sequence symbol. -/
def buildModel (P : HMMParams) (numStates : ℕ) (seq : List Char) :
    List (List VNode) :=
  [startNode] :: buildPositions P numStates 1 seq [startNode]

/-- Model of `HMMPosition::highestScoringNode`: the first node of the position
whose weight no later node strictly exceeds (`NULL` on an empty
position). -/
def highestScoringNode : List VNode → Option VNode
  | [] => none
  | n :: rest =>
    some (rest.foldl
      (fun best m => if m.highestWeight > best.highestWeight then m else best) n)

/-- Dereferencing a backpointer stored as (position id, state): the
node of that state in that position (states are unique within a
position in every built model, so this models the source's direct
pointer faithfully). -/
def lookupNode (model : List (List VNode)) (pid s : ℕ) : Option VNode :=
  (model.get? pid).bind fun pos => pos.find? fun n => n.state == s

/-- The decode loop of `pathStatesResultsString`: starting from a node,
emit its state and follow the backpointer, stopping at the start node
(recognised by the reserved start residue).  A fuel bound makes the
source's while-loop total; `none` models the `NULL` dereference the
source would crash on. -/
def walkBack (model : List (List VNode)) : ℕ → Option VNode → List ℕ
  | 0, _ => []
  | _ + 1, none => []
  | fuel + 1, some node =>
    if node.residue = none then []
    else
      node.state ::
        (match node.back with
         | none => []
         | some (pid, s) => walkBack model fuel (lookupNode model pid s))

/-- Model of `HiddenMarkovModel::pathStatesResultsString` over a freshly built
model: walk back from the highest-scoring node of the last position and
reverse the collected states. -/
def pathStates (P : HMMParams) (numStates : ℕ) (seq : List Char) : List ℕ :=
  let model := buildModel P numStates seq
  (walkBack model model.length
    (highestScoringNode (model.getLast?.getD []))).reverse

/-- A backpointer chain of length `k` below a node: position ids
descend one by one, each hop resolves, and the walk ends at a node
carrying the reserved start residue at position 0. -/
def ChainOK (model : List (List VNode)) : ℕ → VNode → Prop
  | 0, n => n.residue = none
  | k + 1, n =>
    n.residue ≠ none ∧
    ∃ s m, n.back = some (k, s) ∧ lookupNode model k s = some m ∧
      ChainOK model k m

/-- All stored log values of the model are bounded below by `-B`. -/
def BoundedParams (P : HMMParams) (B : ℚ) : Prop :=
  (∀ s, -B ≤ P.logInit s) ∧ (∀ s t, -B ≤ P.logTrans s t) ∧
    (∀ s c, -B ≤ P.logEmis s c)

theorem buildPositions_length (P : HMMParams) (numStates : ℕ) :
    ∀ (seq : List Char) (i : ℕ) (prev : List VNode),
      (buildPositions P numStates i seq prev).length = seq.length := by
  intro seq
  induction seq with
  | nil => intro i prev; rfl
  | cons c rest ih =>
    intro i prev
    simpa [buildPositions] using ih (i + 1) _

theorem highestScoringNode_mem :
    ∀ (pos : List VNode) (n : VNode), highestScoringNode pos = some n →
      n ∈ pos := by
  intro pos n h
  match pos with
  | [] => cases h
  | m :: rest =>
    have hfold : ∀ (l : List VNode) (b : VNode) (S : List VNode), b ∈ S →
        l ⊆ S →
        l.foldl (fun best x =>
          if x.highestWeight > best.highestWeight then x else best) b ∈ S := by
      intro l
      induction l with
      | nil => intro b S hb _; exact hb
      | cons x xs ih =>
        intro b S hb hsub
        by_cases hx : x.highestWeight > b.highestWeight
        · simpa [List.foldl, hx] using
            ih x S (hsub (List.mem_cons_self x xs))
              (fun y hy => hsub (List.mem_cons_of_mem x hy))
        · simpa [List.foldl, hx] using
            ih b S hb (fun y hy => hsub (List.mem_cons_of_mem x hy))
    have hn : rest.foldl (fun best x =>
        if x.highestWeight > best.highestWeight then x else best) m = n := by
      simpa [highestScoringNode] using h
    rw [← hn]
    exact hfold rest m (m :: rest) (List.mem_cons_self m rest)
      (fun y hy => List.mem_cons_of_mem m hy)

theorem walkBack_length (model : List (List VNode)) :
    ∀ (k : ℕ) (n : VNode) (fuel : ℕ), ChainOK model k n → k + 1 ≤ fuel →
      (walkBack model fuel (some n)).length = k := by
  intro k
  induction k with
  | zero =>
    intro n fuel hc hf
    have hres : n.residue = none := hc
    match fuel, hf with
    | f + 1, _ =>
      simp [walkBack, hres]
  | succ k ih =>
    intro n fuel hc hf
    obtain ⟨hres, s, m, hback, hlook, hchain⟩ := hc
    match fuel, hf with
    | f + 1, hf =>
      have hfk : k + 1 ≤ f := by omega
      simp only [walkBack, if_neg hres, hback, hlook]
      simpa using ih m f hchain hfk

theorem updateNode_id (P : HMMParams) (prev : List VNode) (node : VNode) :
    (updateNode P prev node).id = node.id := rfl

theorem updateNode_state (P : HMMParams) (prev : List VNode) (node : VNode) :
    (updateNode P prev node).state = node.state := rfl

theorem updateNode_residue (P : HMMParams) (prev : List VNode)
    (node : VNode) : (updateNode P prev node).residue = node.residue := rfl

theorem mkPosition_ne_nil (ns i : ℕ) (c : Char) (hns : 2 ≤ ns) :
    mkPosition ns i c ≠ [] := by
  have : (mkPosition ns i c).length = ns - 1 := by
    simp [mkPosition]
  intro h
  rw [h] at this
  simp at this
  omega

theorem mem_mkPosition (ns i : ℕ) (c : Char) (n : VNode)
    (h : n ∈ mkPosition ns i c) : n.id = i ∧ n.residue = some c := by
  obtain ⟨s, -, rfl⟩ := List.mem_map.mp h
  exact ⟨rfl, rfl⟩

theorem nodeScore_lower (P : HMMParams) (B : ℚ) (hB : BoundedParams P B)
    (i : ℚ) (node src : VNode) (hw : -(2 * i * B) ≤ src.highestWeight) :
    -(2 * (i + 1) * B) ≤ nodeScore P node src := by
  obtain ⟨h1, h2, h3⟩ := hB
  have ht : -B ≤ transitionLogProbability P src.state node.state := by
    unfold transitionLogProbability
    split
    · exact h1 _
    · exact h2 _ _
  have he : -B ≤ P.logEmis node.state node.residue := h3 _ _
  have hexpand : -(2 * (i + 1) * B) = -(2 * i * B) + -B + -B := by ring
  rw [hexpand]
  unfold nodeScore
  exact add_le_add (add_le_add hw ht) he

/-- One fresh-build step: the position computed from a previous
position satisfying the invariant again satisfies it — every node
carries the right id and residue, its weight is bounded below, and its
backpointer chain reaches the start node. -/
theorem position_step (P : HMMParams) (ns : ℕ) (B : ℚ)
    (hB : BoundedParams P B) (hns : 2 ≤ ns)
    (M : List (List VNode)) (i : ℕ) (prev : List VNode) (c : Char)
    (hprevM : M.get? i = some prev)
    (hprevne : prev ≠ [])
    (hprevinv : ∀ n ∈ prev, n.id = i ∧
      -(2 * (i : ℚ) * B) ≤ n.highestWeight ∧ ChainOK M i n)
    (hbound : 2 * ((i : ℚ) + 1) * B < dblMax) :
    calculateHighestWeightPath P prev (mkPosition ns (i + 1) c) ≠ [] ∧
    ∀ n ∈ calculateHighestWeightPath P prev (mkPosition ns (i + 1) c),
      n.id = i + 1 ∧ n.residue = some c ∧
      -(2 * ((i : ℚ) + 1) * B) ≤ n.highestWeight ∧ ChainOK M (i + 1) n := by
  constructor
  · intro h
    have := congrArg List.length h
    simp [calculateHighestWeightPath] at this
    exact mkPosition_ne_nil ns (i + 1) c hns this
  · intro n hn
    obtain ⟨n0, hn0, rfl⟩ := List.mem_map.mp hn
    obtain ⟨hid0, hres0⟩ := mem_mkPosition ns (i + 1) c n0 hn0
    have hidne : n0.id ≠ 0 := by omega
    obtain ⟨s0, hs0⟩ := List.exists_mem_of_ne_nil prev hprevne
    have hscore : ∀ src ∈ prev,
        -(2 * ((i : ℚ) + 1) * B) ≤ nodeScore P n0 src := by
      intro src hsrc
      exact nodeScore_lower P B hB (i : ℚ) n0 src (hprevinv src hsrc).2.1
    have hgtmax : ∀ src ∈ prev, -dblMax < nodeScore P n0 src := by
      intro src hsrc
      calc -dblMax < -(2 * ((i : ℚ) + 1) * B) := neg_lt_neg hbound
      _ ≤ nodeScore P n0 src := hscore src hsrc
    have hw_eq : (updateNode P prev n0).highestWeight =
        foldScore P n0 prev (-dblMax) := by
      rw [updateNode, if_pos hidne]
      exact scanTransitions_fst P n0 prev (-dblMax) n0.back
    have hMgt : -dblMax < foldScore P n0 prev (-dblMax) :=
      lt_of_lt_of_le (hgtmax s0 hs0)
        (score_le_foldScore P n0 prev (-dblMax) s0 hs0)
    refine ⟨by rw [updateNode_id, hid0], by rw [updateNode_residue, hres0],
      ?_, ?_⟩
    · rw [hw_eq]
      calc -(2 * ((i : ℚ) + 1) * B) ≤ nodeScore P n0 s0 := hscore s0 hs0
      _ ≤ foldScore P n0 prev (-dblMax) :=
        score_le_foldScore P n0 prev (-dblMax) s0 hs0
    · rcases foldScore_eq_or P n0 prev (-dblMax) with h | ⟨sa, hsa, hsaeq⟩
      · exact absurd h (ne_of_gt hMgt)
      · have hfind : ∃ sf, (prev.find? fun s =>
            decide (nodeScore P n0 s = foldScore P n0 prev (-dblMax))) =
              some sf := by
          rw [← Option.isSome_iff_exists]
          rw [List.find?_isSome]
          exact ⟨sa, hsa, by simpa using hsaeq.symm⟩
        obtain ⟨sf, hsf⟩ := hfind
        have hsfmem : sf ∈ prev := List.mem_of_find?_eq_some hsf
        have hback : (updateNode P prev n0).back = some (sf.id, sf.state) := by
          have hbp : (updateNode P prev n0).back =
              (scanTransitions P n0 prev (-dblMax, n0.back)).2 := by
            rw [updateNode, if_pos hidne]
          rw [hbp, scanTransitions_snd P n0 prev (-dblMax) n0.back hMgt,
            hsf]
          rfl
        have hsfid : sf.id = i := (hprevinv sf hsfmem).1
        have hlook : ∃ m, lookupNode M i sf.state = some m ∧ m ∈ prev := by
          unfold lookupNode
          rw [hprevM]
          have : ∃ m, (prev.find? fun nn => nn.state == sf.state) =
              some m := by
            rw [← Option.isSome_iff_exists, List.find?_isSome]
            exact ⟨sf, hsfmem, by simp⟩
          obtain ⟨m, hm⟩ := this
          exact ⟨m, by simpa using hm, List.mem_of_find?_eq_some hm⟩
        obtain ⟨m, hm, hmmem⟩ := hlook
        show ChainOK M (i + 1) (updateNode P prev n0)
        refine ⟨?_, sf.state, m, ?_, hm, (hprevinv m hmmem).2.2⟩
        · rw [updateNode_residue, hres0]
          simp
        · rw [hback, hsfid]

/-- Invariant of the fresh-build loop: every position it creates is
nonempty, and each of its nodes carries the position's id, a weight
bounded below by `-(2 · id · B)`, and a backpointer chain that reaches
the start node. -/
theorem buildPositions_inv (P : HMMParams) (ns : ℕ) (B : ℚ)
    (hB : BoundedParams P B) (hB0 : 0 ≤ B) (hns : 2 ≤ ns)
    (M : List (List VNode)) :
    ∀ (seq : List Char) (i : ℕ) (prev : List VNode),
      (∀ j, j < seq.length →
        M.get? (i + 1 + j) = (buildPositions P ns (i + 1) seq prev).get? j) →
      M.get? i = some prev →
      prev ≠ [] →
      (∀ n ∈ prev, n.id = i ∧ -(2 * (i : ℚ) * B) ≤ n.highestWeight ∧
        ChainOK M i n) →
      2 * ((i : ℚ) + 1 + seq.length) * B < dblMax →
      ∀ j pos, (buildPositions P ns (i + 1) seq prev).get? j = some pos →
        pos ≠ [] ∧ ∀ n ∈ pos, n.id = i + 1 + j ∧
          -(2 * ((i : ℚ) + 1 + j) * B) ≤ n.highestWeight ∧
          ChainOK M (i + 1 + j) n := by
  intro seq
  induction seq with
  | nil =>
    intro i prev _ _ _ _ _ j pos h
    simp [buildPositions] at h
  | cons c rest ih =>
    intro i prev hM hprevM hprevne hprevinv hbound j pos hpos
    have hlenpos : (0 : ℚ) ≤ 2 * (((c :: rest).length : ℕ) : ℚ) * B := by
      positivity
    have hstepb : 2 * ((i : ℚ) + 1) * B < dblMax := by
      have hd : 2 * ((i : ℚ) + 1 + ((c :: rest).length : ℕ)) * B =
          2 * ((i : ℚ) + 1) * B + 2 * (((c :: rest).length : ℕ) : ℚ) * B := by
        ring
      have := hbound
      rw [hd] at this
      linarith
    obtain ⟨hpos0ne, hpos0inv⟩ :=
      position_step P ns B hB hns M i prev c hprevM hprevne hprevinv hstepb
    have hunfold : buildPositions P ns (i + 1) (c :: rest) prev =
        calculateHighestWeightPath P prev (mkPosition ns (i + 1) c) ::
          buildPositions P ns (i + 1 + 1) rest
            (calculateHighestWeightPath P prev (mkPosition ns (i + 1) c)) :=
      rfl
    match j with
    | 0 =>
      rw [hunfold] at hpos
      simp only [List.get?_cons_zero, Option.some.injEq] at hpos
      subst hpos
      refine ⟨hpos0ne, ?_⟩
      intro n hn
      obtain ⟨hid, hres, hwt, hchain⟩ := hpos0inv n hn
      refine ⟨by omega, ?_, ?_⟩
      · have hcast : -(2 * ((i : ℚ) + 1 + ((0 : ℕ) : ℚ)) * B) =
            -(2 * ((i : ℚ) + 1) * B) := by
          norm_num
        rw [hcast]
        exact hwt
      · have : i + 1 + 0 = i + 1 := by omega
        rw [this]
        exact hchain
    | j' + 1 =>
      rw [hunfold] at hpos
      simp only [List.get?_cons_succ] at hpos
      have hprevM' : M.get? (i + 1) =
          some (calculateHighestWeightPath P prev (mkPosition ns (i + 1) c)) := by
        have h0 := hM 0 (by simp)
        rw [hunfold] at h0
        simpa using h0
      have hM' : ∀ j'', j'' < rest.length →
          M.get? (i + 1 + 1 + j'') =
            (buildPositions P ns (i + 1 + 1) rest
              (calculateHighestWeightPath P prev
                (mkPosition ns (i + 1) c))).get? j'' := by
        intro j'' hj
        have h1 := hM (j'' + 1) (by simpa using Nat.succ_lt_succ hj)
        rw [hunfold] at h1
        have h2 : i + 1 + (j'' + 1) = i + 1 + 1 + j'' := by omega
        rw [h2] at h1
        simpa using h1
      have hprevinv' : ∀ n ∈ calculateHighestWeightPath P prev
          (mkPosition ns (i + 1) c),
          n.id = i + 1 ∧ -(2 * ((i + 1 : ℕ) : ℚ) * B) ≤ n.highestWeight ∧
            ChainOK M (i + 1) n := by
        intro n hn
        obtain ⟨hid, -, hwt, hchain⟩ := hpos0inv n hn
        refine ⟨hid, ?_, hchain⟩
        have hcast : -(2 * (((i + 1 : ℕ) : ℚ)) * B) =
            -(2 * ((i : ℚ) + 1) * B) := by
          push_cast
          ring
        rw [hcast]
        exact hwt
      have hbound' : 2 * (((i + 1 : ℕ) : ℚ) + 1 + rest.length) * B <
          dblMax := by
        have hcast : 2 * (((i + 1 : ℕ) : ℚ) + 1 + rest.length) * B =
            2 * ((i : ℚ) + 1 + ((c :: rest).length : ℕ)) * B := by
          push_cast [List.length_cons]
          ring
        rw [hcast]
        exact hbound
      obtain ⟨hposne, hposinv⟩ := ih (i + 1)
        (calculateHighestWeightPath P prev (mkPosition ns (i + 1) c))
        hM' hprevM' hpos0ne hprevinv' hbound' j' pos hpos
      refine ⟨hposne, ?_⟩
      intro n hn
      obtain ⟨hid, hwt, hchain⟩ := hposinv n hn
      refine ⟨by omega, ?_, ?_⟩
      · have hcast : -(2 * ((i : ℚ) + 1 + ((j' + 1 : ℕ) : ℚ)) * B) =
            -(2 * (((i + 1 : ℕ) : ℚ) + 1 + (j' : ℚ)) * B) := by
          push_cast
          ring
        rw [hcast]
        exact hwt
      · have : i + 1 + (j' + 1) = i + 1 + 1 + j' := by omega
        rw [this]
        exact hchain

/-- C7: over a non-empty sequence of length T (with at least one
non-start state per position, and with the model's log values bounded
so that every score stays above the `-DBL_MAX` initialiser), decoding
the Viterbi path — starting at the highest-weight node of the last
position and following backpointers to the start node, then reversing —
yields a state sequence of exactly length T. -/
theorem viterbi_path_length (P : HMMParams) (ns : ℕ) (seq : List Char)
    (B : ℚ) (hseq : seq ≠ []) (hns : 2 ≤ ns) (hB : BoundedParams P B)
    (hB0 : 0 ≤ B) (hbound : 2 * (1 + (seq.length : ℚ)) * B < dblMax) :
    (pathStates P ns seq).length = seq.length := by
  have hT : 1 ≤ seq.length := by
    cases seq with
    | nil => exact absurd rfl hseq
    | cons c rest => simp
  have hbuiltlen : (buildPositions P ns 1 seq [startNode]).length =
      seq.length := buildPositions_length P ns seq 1 [startNode]
  have hM : ∀ j, j < seq.length →
      (buildModel P ns seq).get? (0 + 1 + j) =
        (buildPositions P ns (0 + 1) seq [startNode]).get? j := by
    intro j hj
    have h1 : 0 + 1 + j = j + 1 := by omega
    rw [h1]
    rfl
  have hstart : (buildModel P ns seq).get? 0 = some [startNode] := rfl
  have hstartinv : ∀ n ∈ [startNode], n.id = 0 ∧
      -(2 * ((0 : ℕ) : ℚ) * B) ≤ n.highestWeight ∧
      ChainOK (buildModel P ns seq) 0 n := by
    intro n hn
    rw [List.mem_singleton.mp hn]
    refine ⟨rfl, by norm_num [startNode], ?_⟩
    show startNode.residue = none
    rfl
  have hbound0 : 2 * (((0 : ℕ) : ℚ) + 1 + seq.length) * B < dblMax := by
    have : (((0 : ℕ) : ℚ) + 1 + seq.length) = 1 + (seq.length : ℚ) := by
      push_cast
      ring
    rw [this]
    exact hbound
  have hinv := buildPositions_inv P ns B hB hB0 hns (buildModel P ns seq) seq
    0 [startNode] hM hstart (by simp) hstartinv hbound0
  have hlt : seq.length - 1 < (buildPositions P ns 1 seq [startNode]).length := by
    omega
  obtain ⟨lastpos, hlast⟩ : ∃ pos,
      (buildPositions P ns 1 seq [startNode]).get? (seq.length - 1) =
        some pos :=
    ⟨_, List.get?_eq_get hlt⟩
  have hlast' : (buildPositions P ns (0 + 1) seq [startNode]).get?
      (seq.length - 1) = some lastpos := by
    simpa using hlast
  obtain ⟨hlastne, hlastinv⟩ := hinv (seq.length - 1) lastpos hlast'
  have hidx : 0 + 1 + (seq.length - 1) = seq.length := by omega
  rw [hidx] at hlastinv
  have hgetlast : (buildModel P ns seq).getLast?.getD [] = lastpos := by
    have hlen : (buildModel P ns seq).length = seq.length + 1 := by
      simp [buildModel, hbuiltlen]
    have h1 : (buildModel P ns seq).getLast? =
        (buildModel P ns seq).get? ((buildModel P ns seq).length - 1) := by
      rw [List.getLast?_eq_get?]
    rw [h1, hlen]
    have h2 : seq.length + 1 - 1 = (seq.length - 1) + 1 := by omega
    rw [h2]
    show ((buildPositions P ns 1 seq [startNode]).get? (seq.length - 1)).getD
        [] = lastpos
    rw [hlast]
    rfl
  obtain ⟨nstar, hnstar⟩ : ∃ n, highestScoringNode lastpos = some n := by
    match lastpos, hlastne with
    | m :: rest, _ => exact ⟨_, rfl⟩
  have hnmem : nstar ∈ lastpos := highestScoringNode_mem lastpos nstar hnstar
  have hchain : ChainOK (buildModel P ns seq) seq.length nstar :=
    (hlastinv nstar hnmem).2.2
  have hfuel : seq.length + 1 ≤ (buildModel P ns seq).length := by
    simp [buildModel, hbuiltlen]
  have hwalk := walkBack_length (buildModel P ns seq) seq.length nstar
    (buildModel P ns seq).length hchain hfuel
  show ((walkBack (buildModel P ns seq) (buildModel P ns seq).length
      (highestScoringNode
        ((buildModel P ns seq).getLast?.getD []))).reverse).length =
    seq.length
  rw [hgetlast, hnstar, List.length_reverse]
  exact hwalk

/-- Witness for C7 at a concrete run: a two-symbol sequence, two
states, all log values 0 (bound B = 0). -/
theorem viterbi_path_length_witness :
    (pathStates ⟨fun _ => 0, fun _ _ => 0, fun _ _ => 0⟩ 2
      ['A', 'C']).length = 2 :=
  viterbi_path_length ⟨fun _ => 0, fun _ _ => 0, fun _ _ => 0⟩ 2 ['A', 'C']
    0 (by simp) (le_refl 2)
    ⟨fun _ => by norm_num, fun _ _ => by norm_num, fun _ _ => by norm_num⟩
    (le_refl 0) (by norm_num [dblMax])

/-- A trellis node as the forward-backward pass sees it: state and
observed residue.  (Backward values are kept in a separate table,
mirroring the in-place `logBackwardProbability` field.) -/
structure BNode where
  state : ℕ
  residue : Char
deriving DecidableEq

/-- The probability model's stored log values as read by the
forward-backward pass: possibly the NaN sentinel (zero
probabilities). -/
structure FBParams where
  logInit : ℕ → Option ℚ
  logTrans : ℕ → ℕ → Option ℚ
  logEmis : ℕ → Char → Option ℚ

/-- Model of `HMMTransition::logProbability` in the forward-backward setting. -/
def fbTransitionLogProbability (P : FBParams) (startState endState : ℕ) :
    Option ℚ :=
  if startState = 0 then P.logInit endState else P.logTrans startState endState

/-- The per-node loop body of
`HMMPosition::calculateLogBackwardProbability`: starting from the NaN
sentinel, folds `logBeta := elnsum(logBeta, elnprod(transition log
prob, elnprod(target emission log prob, target backward)))` over the
node's outgoing transitions — whose creation order is the next
position's node order, here given as (target node, target backward)
pairs. -/
def nodeLogBackward (F : TransFns) (P : FBParams) (node : BNode)
    (outs : List (BNode × Option ℚ)) : Except String (Option ℚ) :=
  outs.foldlM
    (fun logBeta tr =>
      MathUtilities.elnsum F logBeta
        (MathUtilities.elnprod
          (fbTransitionLogProbability P node.state tr.1.state)
          (MathUtilities.elnprod (P.logEmis tr.1.state tr.1.residue) tr.2)))
    none

/-- Model of `HMMPosition::calculateLogBackwardProbability` for a whole
position: each node's backward value from the next position's nodes and
their (already computed) backward values. -/
def positionLogBackward (F : TransFns) (P : FBParams) (pos next : List BNode)
    (nextBetas : List (Option ℚ)) : Except String (List (Option ℚ)) :=
  pos.mapM (fun node => nodeLogBackward F P node (next.zip nextBetas))

/-- One iteration of the descending loop of
`calculateLogBackwardProbabilities`: recompute position `pid`'s
backward values from position `pid + 1`'s.  (The out-of-range fallback
is unreachable on the well-formed inputs of the theorems.) -/
def backStep (F : TransFns) (P : FBParams) (model : List (List BNode))
    (betas : List (List (Option ℚ))) (pid : ℕ) :
    Except String (List (List (Option ℚ))) :=
  match model.get? pid, model.get? (pid + 1), betas.get? (pid + 1) with
  | some pos, some next, some nb =>
    match positionLogBackward F P pos next nb with
    | .error e => .error e
    | .ok newB => .ok (betas.set pid newB)
  | _, _, _ => .ok betas

/-- The descending loop `for (positionId = numPositions - 2;
positionId >= 1; positionId--)`: processes `pid, pid - 1, ..., 1` and
never touches position 0. -/
def backLoop (F : TransFns) (P : FBParams) (model : List (List BNode)) :
    ℕ → List (List (Option ℚ)) → Except String (List (List (Option ℚ)))
  | 0, betas => .ok betas
  | pid + 1, betas =>
    match backStep F P model betas (pid + 1) with
    | .error e => .error e
    | .ok betas2 => backLoop F P model pid betas2

/-- Model of `HiddenMarkovModel::calculateLogBackwardProbabilities`: set every
node of the last position to backward log probability 0, then walk the
positions from `numPositions - 2` down to 1.  `betas0` carries the
nodes' prior `logBackwardProbability` contents (uninitialised except on
the start node). -/
def calculateLogBackwardProbabilities (F : TransFns) (P : FBParams)
    (model : List (List BNode)) (betas0 : List (List (Option ℚ))) :
    Except String (List (List (Option ℚ))) :=
  backLoop F P model (model.length - 2)
    (betas0.set (model.length - 1)
      ((model.getD (model.length - 1) []).map (fun _ => some 0)))

theorem nodeLogBackward_ok (F : TransFns) (P : FBParams)
    (hexp : ∀ d, 0 ≤ F.exp d) (node : BNode) :
    ∀ (outs : List (BNode × Option ℚ)) (acc : Option ℚ),
      ∃ r, outs.foldlM
        (fun logBeta tr =>
          MathUtilities.elnsum F logBeta
            (MathUtilities.elnprod
              (fbTransitionLogProbability P node.state tr.1.state)
              (MathUtilities.elnprod (P.logEmis tr.1.state tr.1.residue)
                tr.2)))
        acc = .ok r := by
  intro outs
  induction outs with
  | nil => intro acc; exact ⟨acc, rfl⟩
  | cons tr rest ih =>
    intro acc
    obtain ⟨r1, hr1⟩ := MathUtilities.elnsum_ok_total F hexp acc
      (MathUtilities.elnprod
        (fbTransitionLogProbability P node.state tr.1.state)
        (MathUtilities.elnprod (P.logEmis tr.1.state tr.1.residue) tr.2))
    obtain ⟨r, hr⟩ := ih r1
    exact ⟨r, by rw [List.foldlM_cons, hr1]; simpa using hr⟩

theorem positionLogBackward_ok (F : TransFns) (P : FBParams)
    (hexp : ∀ d, 0 ≤ F.exp d) (next : List BNode)
    (nextBetas : List (Option ℚ)) :
    ∀ pos : List BNode,
      ∃ r, positionLogBackward F P pos next nextBetas = .ok r := by
  intro pos
  induction pos with
  | nil => exact ⟨[], rfl⟩
  | cons node rest ih =>
    obtain ⟨r1, hr1⟩ := nodeLogBackward_ok F P hexp node (next.zip nextBetas)
      none
    obtain ⟨r, hr⟩ := ih
    refine ⟨r1 :: r, ?_⟩
    rw [positionLogBackward, List.mapM_cons]
    rw [positionLogBackward] at hr
    show (nodeLogBackward F P node (next.zip nextBetas) >>= fun x =>
      (rest.mapM fun node => nodeLogBackward F P node (next.zip nextBetas))
        >>= fun xs => pure (x :: xs)) = Except.ok (r1 :: r)
    rw [show nodeLogBackward F P node (next.zip nextBetas) =
      Except.ok r1 from hr1, hr]
    rfl

theorem backStep_spec (F : TransFns) (P : FBParams)
    (model : List (List BNode)) (betas : List (List (Option ℚ))) (pid : ℕ)
    (hexp : ∀ d, 0 ≤ F.exp d) (hlen : betas.length = model.length)
    (hpid : pid + 1 < model.length) :
    ∃ pos next nb newB, model.get? pid = some pos ∧
      model.get? (pid + 1) = some next ∧
      betas.get? (pid + 1) = some nb ∧
      positionLogBackward F P pos next nb = .ok newB ∧
      backStep F P model betas pid = .ok (betas.set pid newB) := by
  have h1 : model.get? pid = some (model.get ⟨pid, by omega⟩) :=
    List.get?_eq_get (by omega)
  have h2 : model.get? (pid + 1) = some (model.get ⟨pid + 1, hpid⟩) :=
    List.get?_eq_get hpid
  have h3 : betas.get? (pid + 1) =
      some (betas.get ⟨pid + 1, by omega⟩) :=
    List.get?_eq_get (by omega)
  obtain ⟨newB, hnewB⟩ := positionLogBackward_ok F P hexp
    (model.get ⟨pid + 1, hpid⟩) (betas.get ⟨pid + 1, by omega⟩)
    (model.get ⟨pid, by omega⟩)
  refine ⟨_, _, _, newB, h1, h2, h3, hnewB, ?_⟩
  rw [backStep, h1, h2, h3]
  show (match positionLogBackward F P (model.get ⟨pid, by omega⟩)
      (model.get ⟨pid + 1, hpid⟩) (betas.get ⟨pid + 1, by omega⟩) with
    | Except.error e => Except.error e
    | Except.ok newB2 => Except.ok (betas.set pid newB2)) =
    Except.ok (betas.set pid newB)
  rw [hnewB]

theorem backLoop_spec (F : TransFns) (P : FBParams)
    (model : List (List BNode)) (hexp : ∀ d, 0 ≤ F.exp d) :
    ∀ (pid : ℕ) (betas : List (List (Option ℚ))),
      betas.length = model.length → pid + 1 < model.length →
      ∃ r, backLoop F P model pid betas = .ok r ∧
        r.length = model.length ∧
        (∀ j, j = 0 ∨ pid < j → r.get? j = betas.get? j) ∧
        (∀ j, 1 ≤ j → j ≤ pid →
          ∃ pos next nb newB, model.get? j = some pos ∧
            model.get? (j + 1) = some next ∧
            r.get? (j + 1) = some nb ∧
            positionLogBackward F P pos next nb = .ok newB ∧
            r.get? j = some newB) := by
  intro pid
  induction pid with
  | zero =>
    intro betas hlen _
    exact ⟨betas, rfl, hlen, fun j _ => rfl, fun j h1 h2 => by omega⟩
  | succ pid ih =>
    intro betas hlen hpid
    obtain ⟨pos, next, nb, newB, hpos, hnext, hnb, hnewB, hstep⟩ :=
      backStep_spec F P model betas (pid + 1) hexp hlen (by omega)
    have hlen2 : (betas.set (pid + 1) newB).length = model.length := by
      simpa using hlen
    obtain ⟨r, hr, hrlen, huntouched, hrec⟩ := ih (betas.set (pid + 1) newB)
      hlen2 (by omega)
    refine ⟨r, ?_, hrlen, ?_, ?_⟩
    · rw [backLoop, hstep]
      exact hr
    · intro j hj
      have hju : j = 0 ∨ pid < j := by omega
      rw [huntouched j hju]
      have hjne : j ≠ pid + 1 := by omega
      simp [List.get?_eq_getElem?, List.getElem?_set_ne (Ne.symm hjne)]
    · intro j hj1 hj2
      rcases Nat.lt_or_ge j (pid + 1) with hlt | hge
      · exact hrec j hj1 (by omega)
      · have hj : j = pid + 1 := by omega
        subst hj
        refine ⟨pos, next, nb, newB, hpos, hnext, ?_, hnewB, ?_⟩
        · rw [huntouched (pid + 1 + 1) (Or.inr (by omega))]
          have hne : pid + 1 ≠ pid + 1 + 1 := by omega
          rw [← hnb]
          simp [List.get?_eq_getElem?, List.getElem?_set_ne hne]
        · rw [huntouched (pid + 1) (Or.inr (by omega))]
          have hplen : pid + 1 < betas.length := by omega
          simp [List.get?_eq_getElem?, List.getElem?_set_self hplen]

/-- C3: the backward pass sets the backward log probability of every
node of the last position to 0, then computes each position `k` from
`numPositions - 2` down to 1 — in strictly descending order, so each
position's values are derived from the next position's final values —
as the per-node `logSum` over outgoing transitions of
`logProduct(transition log prob, logProduct(target emission log prob,
target backward))`; the synthetic start position (position 0) is left
untouched.  With a nonnegative model of `exp` the pass completes
without raising. -/
theorem backward_pass_spec (F : TransFns) (P : FBParams)
    (model : List (List BNode)) (betas0 : List (List (Option ℚ)))
    (hexp : ∀ d, 0 ≤ F.exp d) (hlen : betas0.length = model.length)
    (hN : 2 ≤ model.length) :
    ∃ final, calculateLogBackwardProbabilities F P model betas0 =
        .ok final ∧
      final.length = model.length ∧
      final.get? (model.length - 1) =
        some ((model.getD (model.length - 1) []).map (fun _ => some 0)) ∧
      final.get? 0 = betas0.get? 0 ∧
      (∀ k, 1 ≤ k → k ≤ model.length - 2 →
        ∃ pos next nb newB, model.get? k = some pos ∧
          model.get? (k + 1) = some next ∧
          final.get? (k + 1) = some nb ∧
          positionLogBackward F P pos next nb = .ok newB ∧
          final.get? k = some newB) := by
  have hlen1 : (betas0.set (model.length - 1)
      ((model.getD (model.length - 1) []).map (fun _ => some 0))).length =
      model.length := by
    simpa using hlen
  obtain ⟨r, hr, hrlen, huntouched, hrec⟩ := backLoop_spec F P model hexp
    (model.length - 2)
    (betas0.set (model.length - 1)
      ((model.getD (model.length - 1) []).map (fun _ => some 0)))
    hlen1 (by omega)
  refine ⟨r, hr, hrlen, ?_, ?_, hrec⟩
  · rw [huntouched (model.length - 1) (Or.inr (by omega))]
    have hlast : model.length - 1 < betas0.length := by omega
    simp [List.get?_eq_getElem?, List.getElem?_set_self hlast]
  · rw [huntouched 0 (Or.inl rfl)]
    have hne : model.length - 1 ≠ 0 := by omega
    simp [List.get?_eq_getElem?, List.getElem?_set_ne hne]

/-- Witness for C3 at a concrete three-position model. -/
theorem backward_pass_spec_witness :
    ∃ final, calculateLogBackwardProbabilities oneFns
        ⟨fun _ => some 0, fun _ _ => some 0, fun _ _ => some 0⟩
        [[⟨0, 'A'⟩], [⟨1, 'A'⟩], [⟨1, 'C'⟩]] [[none], [none], [none]] =
      .ok final := by
  obtain ⟨final, h, -⟩ := backward_pass_spec oneFns
    ⟨fun _ => some 0, fun _ _ => some 0, fun _ _ => some 0⟩
    [[⟨0, 'A'⟩], [⟨1, 'A'⟩], [⟨1, 'C'⟩]] [[none], [none], [none]]
    (fun d => by norm_num [oneFns]) rfl (by norm_num)
  exact ⟨final, h⟩
